import Mathlib

/-!
Verification of the schema reconciliation and normalization pipeline of the
Business_Operations repository (src/app.py) against its specification.
Python strings are modelled as Lean strings (lists of characters, ASCII
semantics for case folding and digit classes), pandas dataframes as ordered
association lists from column names to typed columns, numeric cells as
rational numbers with null as Option.none, and dates as integer codes.
-/

namespace BusinessOps

/-! ## Definitions -/

/-- Whitespace test matching the character class of Python regular
expressions (space, tab, newline, carriage return, vertical tab, form feed),
restricted to ASCII. -/
def isWsChar (c : Char) : Bool :=
  c.toNat = 32 ∨ c.toNat = 9 ∨ c.toNat = 10 ∨ c.toNat = 13 ∨ c.toNat = 11 ∨ c.toNat = 12

/-- ASCII lower-casing of one character, the ASCII fragment of the Python
str.lower method used on header text in src/app.py. -/
def lowerChar (c : Char) : Char :=
  if 65 ≤ c.toNat ∧ c.toNat ≤ 90 then Char.ofNat (c.toNat + 32) else c

/-- The straight apostrophe character, built by code point to keep source
strings free of quote characters. -/
def aposC : Char := Char.ofNat 39

/-- Replacement of the curly apostrophe (U+2019) and the backtick (U+0060)
by the straight apostrophe, as done character by character in canon
(src/app.py lines 135). -/
def aposChar (c : Char) : Char :=
  if c.toNat = 8217 ∨ c.toNat = 96 then aposC else c

/-- Drop of leading whitespace, as in Python str.strip (left half). -/
def trimLeft (l : List Char) : List Char := l.dropWhile isWsChar

/-- Model of Python str.strip: drop leading and trailing whitespace. -/
def trimList (l : List Char) : List Char :=
  ((trimLeft l).reverse.dropWhile isWsChar).reverse

/-- Model of Python str.strip on strings. -/
def pyStrip (s : String) : String := String.mk (trimList s.data)

/-- Worker for whitespace collapsing: the flag records whether the previous
retained position is inside a whitespace run.  Each maximal whitespace run
is replaced by one space, as re.sub of a whitespace-run pattern with a
single space does in canon (src/app.py line 136). -/
def collapseAux : Bool → List Char → List Char
  | _, [] => []
  | prevWs, c :: cs =>
    if isWsChar c then
      if prevWs then collapseAux true cs
      else ' ' :: collapseAux true cs
    else c :: collapseAux false cs

/-- Collapse of every whitespace run to a single space. -/
def collapseWs (l : List Char) : List Char := collapseAux false l

/-- Translation of canon (src/app.py lines 130 to 137) on character lists:
strip, lower-case, unify apostrophes, collapse whitespace runs, in the order
of the source. -/
def canonList (l : List Char) : List Char :=
  collapseWs (((trimList l).map lowerChar).map aposChar)

/-- Translation of canon (src/app.py lines 130 to 137): canonicalize a
header string. -/
def canon (s : String) : String := String.mk (canonList s.data)

/-- Lists whose first character, when present, is not whitespace. -/
def HeadOk (l : List Char) : Prop := ∀ c, l.head? = some c → isWsChar c = false

/-- Lists whose last character, when present, is not whitespace. -/
def LastOk (l : List Char) : Prop := ∀ c, l.getLast? = some c → isWsChar c = false

/-- Character for one decimal digit. -/
def digitChar (d : Nat) : Char := Char.ofNat (48 + d)

/-- Fuel-bounded decimal rendering of a natural number, most significant
digit first.  With fuel larger than the number it renders every digit. -/
def decStrAux : Nat → Nat → List Char
  | 0, _ => []
  | fuel+1, n => if n < 10 then [digitChar n] else decStrAux fuel (n / 10) ++ [digitChar (n % 10)]

/-- Decimal digit characters of a natural number. -/
def decChars (n : Nat) : List Char := decStrAux (n + 1) n

/-- Value of a decimal digit-character list, reading left to right. -/
def parseNatChars (l : List Char) : Nat :=
  l.foldl (fun a c => a * 10 + (c.toNat - 48)) 0

/-- Suffixed label of the deduplication scheme: the label, two underscores,
then the occurrence number in decimal. -/
def mkName (label : String) (k : Nat) : String :=
  String.mk (label.data ++ '_' :: '_' :: decChars k)

/-- Split of a character list at every occurrence of a separator character,
as Python str.split with a one-character separator does: the result always
has one more part than there are separators. -/
def splitOnChar (sep : Char) : List Char → List (List Char)
  | [] => [[]]
  | c :: cs =>
    let r := splitOnChar sep cs
    if c = sep then [] :: r
    else
      match r with
      | [] => [[c]]
      | h :: t => (c :: h) :: t

/-- All characters are ASCII decimal digits. -/
def digitsOnly (l : List Char) : Bool := l.all Char.isDigit

/-- Model of pandas to_numeric with coercion of failures, restricted to the
alphabet that survives the currency cleaning step (digits, dots, minus
signs): an optional leading minus, then digit runs around at most one dot,
with at least one digit in total; anything else is null.  Values are exact
rationals in place of floats. -/
def parseUnsigned (l : List Char) : Option ℚ :=
  match splitOnChar '.' l with
  | [ip] => if ip ≠ [] ∧ digitsOnly ip then some (parseNatChars ip) else none
  | [ip, fp] =>
    if digitsOnly ip ∧ digitsOnly fp ∧ (ip ≠ [] ∨ fp ≠ []) then
      some ((parseNatChars ip : ℚ) + (parseNatChars fp : ℚ) / (10 : ℚ) ^ fp.length)
    else none
  | _ => none

/-- Signed decimal reading of a cleaned cell string. -/
def parseDecimal (s : String) : Option ℚ :=
  match s.data with
  | [] => none
  | c :: rest =>
    if c = '-' then (parseUnsigned rest).map (fun q => -q)
    else parseUnsigned (c :: rest)

/-- Characters kept by the currency cleaning step of standardize: the
complement of the character class removed by its regex substitution
(src/app.py lines 174 to 189). -/
def keepCurrencyChar (c : Char) : Bool := c.isDigit ∨ c = '.' ∨ c = '-'

/-- Model of re.sub with empty replacement: remove every character matched
by the class. -/
def reSubRemove (p : Char → Bool) : List Char → List Char
  | [] => []
  | c :: cs => if p c then reSubRemove p cs else c :: reSubRemove p cs

/-- Translation of the cleaning step of the Price and Payout coercion in
standardize (src/app.py lines 174 to 189): remove every character that is
not a digit, a dot, or a minus sign. -/
def cleanCurrency (s : String) : String :=
  String.mk (reSubRemove (fun c => !(keepCurrencyChar c)) s.data)

/-- Translation of the Price and Payout coercion in standardize: regex
cleaning, then numeric conversion with null on failure (src/app.py lines
174 to 189). -/
def coerceCurrency (s : String) : Option ℚ := parseDecimal (cleanCurrency s)

/-- Formalization of the claim wording of C7, which keeps a minus sign only
in leading position of the cell while digits and dots are kept anywhere. -/
def specCleanLeadingMinus (s : String) : String :=
  match s.data with
  | [] => String.mk []
  | c :: rest =>
    if c = '-' then String.mk ('-' :: rest.filter (fun c2 => c2.isDigit ∨ c2 = '.'))
    else String.mk ((c :: rest).filter (fun c2 => c2.isDigit ∨ c2 = '.'))

/-- Currency coercion as worded by claim C7. -/
def specCoerceLeadingMinus (s : String) : Option ℚ :=
  parseDecimal (specCleanLeadingMinus s)

/-- Translation of the Tech and Service coercion in standardize: cast to
string and strip surrounding whitespace (src/app.py lines 167 to 171). -/
def coerceText (s : String) : String := pyStrip s

/-- Translation of the PaymentMode coercion in standardize: strip
surrounding whitespace, then delete every dot, as the literal str.replace
of a dot with the empty string does (src/app.py lines 159 to 165). -/
def coercePaymentMode (s : String) : String :=
  String.mk ((trimList s.data).filter (fun c => c != '.'))

/-- Date codes: year, month and day packed into one integer so that the
usual order on integers is the chronological order. -/
abbrev PDate := Int

/-- Simplified day-first date reading standing in for pandas to_datetime
with dayfirst and coercion of failures (src/app.py line 157), restricted to
slash-separated day/month/year strings.  No claim in this file depends on
the internals of date parsing, only on null propagation and order. -/
def parseDate (s : String) : Option PDate :=
  match splitOnChar '/' (trimList s.data) with
  | [ds, ms, ys] =>
    if digitsOnly ds ∧ digitsOnly ms ∧ digitsOnly ys ∧ ds ≠ [] ∧ ms ≠ [] ∧ ys ≠ [] then
      let d := parseNatChars ds
      let m := parseNatChars ms
      let y := parseNatChars ys
      if 1 ≤ d ∧ d ≤ 31 ∧ 1 ≤ m ∧ m ≤ 12 then
        some ((y : Int) * 10000 + (m : Int) * 100 + (d : Int))
      else none
    else none
  | _ => none

/-- One dataframe column: raw or text cells, date cells, or numeric cells.
Nulls are Option.none; numeric cells are exact rationals. -/
inductive Col where
  | str : List String → Col
  | date : List (Option PDate) → Col
  | num : List (Option ℚ) → Col
deriving DecidableEq

/-- A dataframe: ordered association list of column name and column, as
pandas keeps columns in order. -/
abbrev Frame := List (String × Col)

def colNames (fr : Frame) : List String := fr.map (fun p => p.1)

def hasCol (fr : Frame) (n : String) : Bool := fr.any (fun p => p.1 = n)

def getCol (fr : Frame) (n : String) : Option Col :=
  (fr.find? (fun p => p.1 = n)).map (fun p => p.2)

/-- The apostrophe as a one-character string, used to build alias keys
without quote characters in source literals. -/
def sApos : String := String.mk [aposC]

/-- Alias key for the technician column, containing an apostrophe. -/
def hdrProviderAlias : String := "service provider" ++ sApos ++ "s name"

/-- Shared alias table of the three streams: the COLUMN_MAPS dictionaries
of src/app.py lines 50 to 88 carry these same ten entries for Recep, Tech
and Wax-Hub, mapping canonical source header text to internal names. -/
def STREAM_MAP : List (String × String) :=
  [("timestamp", "Timestamp"), ("name", "Name"), ("phone number", "Phone"),
   (hdrProviderAlias, "Tech"), ("service provided", "Service"),
   ("mode of payment", "PaymentMode"), ("comments", "Comments"),
   ("price", "Price"), ("payout (0.35)", "Payout"), ("payout", "Payout")]

/-- Translation of COLUMN_MAPS (src/app.py lines 50 to 88): per-stream
alias tables, with the empty table for unknown stream names as dict.get
with a default empty mapping gives. -/
def COLUMN_MAPS (stream : String) : List (String × String) :=
  if stream = "Recep" then STREAM_MAP
  else if stream = "Tech" then STREAM_MAP
  else if stream = "Wax-Hub" then STREAM_MAP
  else []

/-- Dict update preserving insertion order, as Python dict assignment does. -/
def setAssoc (m : List (String × String)) (k v : String) : List (String × String) :=
  if m.any (fun p => p.1 = k) then m.map (fun p => if p.1 = k then (k, v) else p)
  else m ++ [(k, v)]

/-- Lookup in an association list by key, first match. -/
def lookupAssoc (m : List (String × String)) (k : String) : Option String :=
  (m.find? (fun p => p.1 = k)).map (fun p => p.2)

/-- Translation of the rename-map construction in standardize (src/app.py
lines 141 to 151): the canon-to-original dict comprehension keeps the last
original column of each canonical form, and every alias whose canonical key
matches sends that original column name to the internal name. -/
def buildRenameMap (mapping : List (String × String)) (cols : List String) :
    List (String × String) :=
  mapping.foldl (fun rm kv =>
    match cols.reverse.find? (fun c => canon c = canon kv.1) with
    | some orig => setAssoc rm orig kv.2
    | none => rm) []

/-- Application of a rename map to one column name, identity when absent,
as pandas rename leaves unmapped columns untouched. -/
def renameHeader (rm : List (String × String)) (c : String) : String :=
  (lookupAssoc rm c).getD c

/-- Typed coercion of a raw column to dates. -/
def toDateCol : Col → Col
  | Col.str cs => Col.date (cs.map parseDate)
  | c => c

/-- Typed coercion of a raw column to numbers through the currency
cleaner. -/
def toNumCol : Col → Col
  | Col.str cs => Col.num (cs.map coerceCurrency)
  | c => c

/-- Whitespace trim of a text column. -/
def toTextCol : Col → Col
  | Col.str cs => Col.str (cs.map coerceText)
  | c => c

/-- PaymentMode cleanup of a text column. -/
def toPayModeCol : Col → Col
  | Col.str cs => Col.str (cs.map coercePaymentMode)
  | c => c

/-- Numeric column multiplied cellwise by the commission rate; null cells
stay null, as NaN arithmetic does. -/
def priceTimes (rate : ℚ) : Col → Col
  | Col.num cs => Col.num (cs.map (Option.map (fun q => q * rate)))
  | c => c

/-- Application of a column transformation to every column with the given
name, leaving the rest alone. -/
def transformCol (n : String) (f : Col → Col) (fr : Frame) : Frame :=
  fr.map (fun p => if p.1 = n then (p.1, f p.2) else p)

/-- Rename stage of standardize (src/app.py lines 141 to 153): every
column name goes through the rename map built from the stream alias
table. -/
def renameFrame (fr : Frame) (stream : String) : Frame :=
  fr.map (fun p => (renameHeader (buildRenameMap (COLUMN_MAPS stream) (colNames fr)) p.1, p.2))

/-- Coercion stage of standardize (src/app.py lines 156 to 180): Timestamp,
PaymentMode, Tech, Service and Price columns coerced in source order, each
guarded by column presence, which the columnwise transform subsumes. -/
def coerceFrame (fr : Frame) : Frame :=
  transformCol "Price" toNumCol
    (transformCol "Service" toTextCol
      (transformCol "Tech" toTextCol
        (transformCol "PaymentMode" toPayModeCol
          (transformCol "Timestamp" toDateCol fr))))

/-- Translation of standardize (src/app.py lines 140 to 194): rename via
the stream alias table, coerce the five known columns, then coerce Payout
when present or derive it from Price times the commission rate when a
Price column exists. -/
def standardize (fr : Frame) (stream : String) (rate : ℚ) : Frame :=
  let f6 := coerceFrame (renameFrame fr stream)
  if hasCol f6 "Payout" then transformCol "Payout" toNumCol f6
  else
    match getCol f6 "Price" with
    | some pc => f6 ++ [("Payout", priceTimes rate pc)]
    | none => f6

/-- Row count of a frame, read off its first column. -/
def nrows (fr : Frame) : Nat :=
  match fr with
  | [] => 0
  | (_, Col.str cs) :: _ => cs.length
  | (_, Col.date cs) :: _ => cs.length
  | (_, Col.num cs) :: _ => cs.length

/-- Required internal columns after mapping (src/app.py line 90). -/
def REQUIRED_INTERNAL : List String := ["Timestamp", "Tech", "Service", "Price"]

/-- Combined names the rename step of standardize produces for a frame. -/
def mappedNames (fr : Frame) (stream : String) : List String :=
  (colNames fr).map (renameHeader (buildRenameMap (COLUMN_MAPS stream) (colNames fr)))

/-- Translation of load_tab together with validate_required (src/app.py
lines 197 to 216): standardize, halt when a required internal column is
missing after mapping (st.error plus st.stop, modelled as none), otherwise
tag every row with the stream name in a fresh Stream column. -/
def load_tab (fr : Frame) (stream : String) (rate : ℚ) : Option Frame :=
  let df := standardize fr stream rate
  if (REQUIRED_INTERNAL.filter (fun c => !(hasCol df c))).isEmpty then
    some (df ++ [("Stream", Col.str (List.replicate (nrows df) stream))])
  else none

/-- One canonical record: the six target fields plus the stream tag.
Nullable fields are Options; text fields are plain strings as the code
casts them with astype before use. -/
structure Row where
  timestamp : Option PDate
  tech : String
  service : String
  paymentMode : String
  price : Option ℚ
  payout : Option ℚ
  stream : String
deriving DecidableEq

/-- Translation of apply_filters (src/app.py lines 219 to 235) on canonical
tables: drop null timestamps, keep the inclusive date range, then each
categorical filter guarded by a non-empty selection different from All.
Canonical tables always carry the Timestamp and PaymentMode fields, so the
column-existence guards of the source are always true here. -/
def apply_filters (df : List Row) (tech service paymode : String)
    (d1 d2 : PDate) : List Row :=
  let o1 := df.filter (fun r => r.timestamp.isSome)
  let o2 := o1.filter (fun r =>
    match r.timestamp with
    | some t => decide (d1 ≤ t) && decide (t ≤ d2)
    | none => false)
  let o3 := if tech ≠ "" ∧ tech ≠ "All" then o2.filter (fun r => r.tech = tech) else o2
  let o4 := if service ≠ "" ∧ service ≠ "All" then o3.filter (fun r => r.service = service) else o3
  let o5 := if paymode ≠ "" ∧ paymode ≠ "All" then o4.filter (fun r => r.paymentMode = paymode) else o4
  o5

/-- Row predicate as worded by claim C6: non-null timestamp inside the
inclusive bounds, and each categorical field equal to its selection unless
the selection is All. -/
def keepsRow (tech service paymode : String) (d1 d2 : PDate) (r : Row) : Bool :=
  (match r.timestamp with
   | none => false
   | some t => decide (d1 ≤ t) && decide (t ≤ d2))
  && (decide (tech = "All") || decide (r.tech = tech))
  && (decide (service = "All") || decide (r.service = service))
  && (decide (paymode = "All") || decide (r.paymentMode = paymode))

/-- Translation of the per-stream load loop (src/app.py lines 255 to 261):
a failed load is reported and skipped, a successful frame is appended, so
one failure never touches sibling streams. -/
def loadLoop (results : List (Option (List Row))) : List (List Row) :=
  results.foldl (fun dfs r =>
    match r with
    | some df => dfs ++ [df]
    | none => dfs) []

/-- Translation of the merge step (src/app.py lines 262 to 265): stop when
no stream loaded at all, otherwise concatenate the loaded tables in load
order. -/
def df_all (results : List (Option (List Row))) : Option (List Row) :=
  let dfs := loadLoop results
  if dfs.isEmpty then none else some dfs.flatten

/-- Modelled from the spec: substitution of the placeholder for empty or
blank header text.  The deduplicate operation named by the spec has no body
under src (load_tab delegates raw header handling to the spreadsheet
client), so this section follows the words of the specification. -/
def substBlank (s : String) : String := if pyStrip s = "" then "Unnamed" else s

/-- Modelled from the spec: smallest free suffixed label at or above a
starting count, bumping past labels already produced so that output labels
stay unique; the fuel always suffices when it exceeds the length of seen. -/
def pickAux (seen : List String) (base : String) : Nat → Nat → String
  | k, 0 => mkName base k
  | k, fuel+1 =>
    if mkName base k ∈ seen then pickAux seen base (k + 1) fuel else mkName base k

/-- Modelled from the spec: output label for the next header, given the
substituted labels already processed and the output labels already
produced — the label itself on a fresh first occurrence, otherwise the
smallest free suffixed form at or above the occurrence count. -/
def stepName (prev seen : List String) (h : String) : String :=
  let base := substBlank h
  let n := prev.count base
  if n = 0 then (if base ∈ seen then pickAux seen base 2 (seen.length + 1) else base)
  else pickAux seen base (n + 1) (seen.length + 1)

/-- Modelled from the spec: deduplication worker.  prev records the
substituted labels already processed in order, seen the output labels
already produced. -/
def dedupGo (prev seen : List String) : List String → List String
  | [] => []
  | h :: t =>
    stepName prev seen h ::
      dedupGo (prev ++ [substBlank h]) (stepName prev seen h :: seen) t

/-- Modelled from the spec: the naming rule as literally worded, applied
along the list — first occurrence of a substituted label as-is, k-th
occurrence suffixed with k, with no collision handling. -/
def naiveRun (prev : List String) : List String → List String
  | [] => []
  | h :: t =>
    (if prev.count (substBlank h) = 0 then substBlank h
     else mkName (substBlank h) (prev.count (substBlank h) + 1))
      :: naiveRun (prev ++ [substBlank h]) t

/-- Invariant of the deduplication worker: every already produced label is
either a processed base label or a suffixed base label whose count is at
most the number of processed occurrences of that base. -/
def GoodSeen (prev seen : List String) : Prop :=
  ∀ x ∈ seen, x ∈ prev ∨
    ∃ b k, b ∈ prev ∧ 2 ≤ k ∧ k ≤ prev.count b ∧ x = mkName b k

/-- Modelled from the spec: deduplicate produces unique output labels in
order, first occurrence as-is after blank substitution, later occurrences
suffixed by occurrence count. -/
def deduplicate (hs : List String) : List String := dedupGo [] [] hs

/-- Modelled from the spec: the output label the specification wording
assigns to position i — the substituted label itself on its first
occurrence, otherwise the label suffixed with its occurrence number. -/
def specName (hs : List String) (i : Nat) : String :=
  let base := substBlank (hs.getD i "")
  let cnt := ((hs.take i).map substBlank).count base
  if cnt = 0 then base else mkName base (cnt + 1)

/-- Test for a raw (string) column. -/
def isRawCol : Col → Bool
  | Col.str _ => true
  | _ => false

/-- Collision freedom of a list of substituted labels: no label equals a
suffixed form of another label of the list. -/
def NoCollide (B : List String) : Prop :=
  ∀ b1 ∈ B, ∀ b2 ∈ B, ∀ k, 2 ≤ k → b1 ≠ mkName b2 k

/-- The em dash as a string, built by code point. -/
def emDash : String := String.mk [Char.ofNat 8212]

/-- Sample canonical row with a valid timestamp. -/
def exRow1 : Row := ⟨some 20240105, "Alice", "Cut", "Mpesa", some 1000, some 350, "Recep"⟩

/-- Sample canonical row with a null timestamp. -/
def exRowNull : Row := ⟨none, "Bob", "Wax", "Cash", some 500, none, "Tech"⟩

/-- Mixed five-row table for the date-range scenario: two rows inside
January 2024, one null timestamp, two out of range. -/
def exRows6 : List Row :=
  [⟨some 20240110, "A", "Cut", "Mpesa", some 100, none, "Recep"⟩,
   ⟨some 20231215, "B", "Cut", "Cash", some 200, none, "Recep"⟩,
   ⟨none, "C", "Wax", "Mpesa", some 300, none, "Tech"⟩,
   ⟨some 20240131, "D", "Wax", "Cash", some 400, none, "Tech"⟩,
   ⟨some 20240201, "E", "Cut", "Mpesa", some 500, none, "Wax-Hub"⟩]

/-- Frame with alias matches for Timestamp, Tech, Service and PaymentMode
but no alias match and no fallback for Price. -/
def exFrameNoPrice : Frame :=
  [("Timestamp", Col.str []),
   ("Service Provider" ++ sApos ++ "s Name", Col.str []),
   ("Service Provided", Col.str []),
   ("Mode of Payment", Col.str [])]

/-- Frame whose column at zero-based index 11 is labelled Random Notes and
holds numeric text, with no alias match for Price anywhere. -/
def exFrameRandomNotes : Frame :=
  [("Timestamp", Col.str ["05/01/2024"]),
   ("c1", Col.str ["x"]), ("c2", Col.str ["x"]), ("c3", Col.str ["x"]),
   ("c4", Col.str ["x"]), ("c5", Col.str ["x"]), ("c6", Col.str ["x"]),
   ("c7", Col.str ["x"]), ("c8", Col.str ["x"]), ("c9", Col.str ["x"]),
   ("c10", Col.str ["x"]),
   ("Random Notes", Col.str ["100"])]

/-- Frame with a Price column and no Payout column. -/
def exFramePrice : Frame :=
  [("Timestamp", Col.str ["05/01/2024"]), ("Price", Col.str ["KSh 1,500.00"])]

/-! ## Theorems -/

theorem lowerChar_fix (d : Char) (hd : ¬(65 ≤ d.toNat ∧ d.toNat ≤ 90)) :
    lowerChar d = d := by
  unfold lowerChar
  rw [if_neg hd]

theorem aposChar_fix (d : Char) (hd : ¬(d.toNat = 8217 ∨ d.toNat = 96)) :
    aposChar d = d := by
  unfold aposChar
  rw [if_neg hd]

theorem lowerChar_toNat_range (c : Char) (h : 65 ≤ c.toNat ∧ c.toNat ≤ 90) :
    (lowerChar c).toNat = c.toNat + 32 := by
  have hall : ∀ m, m < 123 → 97 ≤ m → (Char.ofNat m).toNat = m := by decide
  unfold lowerChar
  rw [if_pos h]
  exact hall (c.toNat + 32) (by omega) (by omega)

theorem isWs_eq_false (d : Char)
    (hd : ¬(d.toNat = 32 ∨ d.toNat = 9 ∨ d.toNat = 10 ∨ d.toNat = 13 ∨
        d.toNat = 11 ∨ d.toNat = 12)) : isWsChar d = false := by
  unfold isWsChar
  exact decide_eq_false hd

theorem lowerChar_idem (c : Char) : lowerChar (lowerChar c) = lowerChar c := by
  by_cases h : 65 ≤ c.toNat ∧ c.toNat ≤ 90
  · have h1 : (lowerChar c).toNat = c.toNat + 32 := lowerChar_toNat_range c h
    exact lowerChar_fix _ (by omega)
  · rw [lowerChar_fix c h]
    exact lowerChar_fix c h

theorem isWs_lowerChar (c : Char) : isWsChar (lowerChar c) = isWsChar c := by
  by_cases h : 65 ≤ c.toNat ∧ c.toNat ≤ 90
  · have h1 : (lowerChar c).toNat = c.toNat + 32 := lowerChar_toNat_range c h
    rw [isWs_eq_false _ (by omega), isWs_eq_false c (by omega)]
  · rw [lowerChar_fix c h]

theorem isWs_aposChar (c : Char) : isWsChar (aposChar c) = isWsChar c := by
  by_cases h : c.toNat = 8217 ∨ c.toNat = 96
  · unfold aposChar
    rw [if_pos h]
    have ha : aposC.toNat = 39 := by decide
    rw [isWs_eq_false aposC (by omega), isWs_eq_false c (by omega)]
  · rw [aposChar_fix c h]

theorem aposChar_idem (c : Char) : aposChar (aposChar c) = aposChar c := by
  by_cases h : c.toNat = 8217 ∨ c.toNat = 96
  · unfold aposChar
    rw [if_pos h, if_neg (by decide)]
  · rw [aposChar_fix c h]
    exact aposChar_fix c h

theorem lowerChar_aposC : lowerChar aposC = aposC := by decide

theorem lowerChar_aposChar (c : Char) :
    lowerChar (aposChar (lowerChar c)) = aposChar (lowerChar c) := by
  by_cases h : (lowerChar c).toNat = 8217 ∨ (lowerChar c).toNat = 96
  · unfold aposChar
    rw [if_pos h]
    exact lowerChar_aposC
  · rw [aposChar_fix _ h]
    exact lowerChar_idem c

theorem head?_dropWhile_not (p : Char → Bool) :
    ∀ (l : List Char) (c : Char), (l.dropWhile p).head? = some c → p c = false := by
  intro l
  induction l with
  | nil => intro c h; simp at h
  | cons a t ih =>
    intro c h
    rw [List.dropWhile_cons] at h
    by_cases hp : p a = true
    · rw [if_pos hp] at h
      exact ih c h
    · rw [if_neg hp] at h
      have hac : a = c := by simpa using h
      subst hac
      cases hpa : p a with
      | true => exact absurd hpa hp
      | false => rfl

theorem dropWhile_eq_self_of (p : Char → Bool) (l : List Char)
    (h : ∀ c, l.head? = some c → p c = false) : l.dropWhile p = l := by
  cases l with
  | nil => rfl
  | cons a t =>
    have ha := h a rfl
    rw [List.dropWhile_cons]
    simp [ha]

theorem trimList_prefixOf (l : List Char) : trimList l <+: trimLeft l := by
  unfold trimList
  have h := List.dropWhile_suffix (l := (trimLeft l).reverse) isWsChar
  have h2 := List.reverse_prefix.mpr h
  rwa [List.reverse_reverse] at h2

theorem HeadOk_prefixOf {x y : List Char} (h : x <+: y) (hy : HeadOk y) : HeadOk x := by
  intro c hc
  cases x with
  | nil => simp at hc
  | cons a t =>
    obtain ⟨r, hr⟩ := h
    have hya : y.head? = some a := by rw [← hr]; rfl
    have hca : a = c := by simpa using hc
    subst hca
    exact hy a hya

theorem HeadOk_trimLeft (l : List Char) : HeadOk (trimLeft l) := by
  intro c hc
  exact head?_dropWhile_not isWsChar l c hc

theorem HeadOk_trimList (l : List Char) : HeadOk (trimList l) :=
  HeadOk_prefixOf (trimList_prefixOf l) (HeadOk_trimLeft l)

theorem LastOk_trimList (l : List Char) : LastOk (trimList l) := by
  intro c hc
  unfold trimList at hc
  rw [List.getLast?_reverse] at hc
  exact head?_dropWhile_not isWsChar _ c hc

theorem HeadOk_map (f : Char → Char) (hf : ∀ c, isWsChar (f c) = isWsChar c)
    {l : List Char} (h : HeadOk l) : HeadOk (l.map f) := by
  intro c hc
  rw [List.head?_map] at hc
  cases hl : l.head? with
  | none => rw [hl] at hc; simp at hc
  | some a =>
    rw [hl] at hc
    have hfc : f a = c := by simpa using hc
    rw [← hfc, hf a]
    exact h a hl

theorem LastOk_map (f : Char → Char) (hf : ∀ c, isWsChar (f c) = isWsChar c)
    {l : List Char} (h : LastOk l) : LastOk (l.map f) := by
  intro c hc
  rw [List.getLast?_map] at hc
  cases hl : l.getLast? with
  | none => rw [hl] at hc; simp at hc
  | some a =>
    rw [hl] at hc
    have hfc : f a = c := by simpa using hc
    rw [← hfc, hf a]
    exact h a hl

theorem trimList_fix {x : List Char} (h1 : HeadOk x) (h2 : LastOk x) :
    trimList x = x := by
  unfold trimList trimLeft
  rw [dropWhile_eq_self_of isWsChar x h1]
  have hx : ∀ c, x.reverse.head? = some c → isWsChar c = false := by
    intro c hc
    rw [List.head?_reverse] at hc
    exact h2 c hc
  rw [dropWhile_eq_self_of isWsChar x.reverse hx, List.reverse_reverse]

theorem collapseAux_nil (b : Bool) : collapseAux b [] = [] := rfl

theorem collapseAux_cons_ws_t (c : Char) (cs : List Char) (h : isWsChar c = true) :
    collapseAux true (c :: cs) = collapseAux true cs := by
  simp [collapseAux, h]

theorem collapseAux_cons_ws_f (c : Char) (cs : List Char) (h : isWsChar c = true) :
    collapseAux false (c :: cs) = ' ' :: collapseAux true cs := by
  simp [collapseAux, h]

theorem collapseAux_cons_nws (b : Bool) (c : Char) (cs : List Char)
    (h : isWsChar c = false) : collapseAux b (c :: cs) = c :: collapseAux false cs := by
  cases b <;> simp [collapseAux, h]

theorem bool_eq_false {b : Bool} (h : ¬ b = true) : b = false := by
  cases hb : b with
  | true => exact absurd hb h
  | false => rfl

theorem HeadOk_collapse {l : List Char} (h : HeadOk l) : HeadOk (collapseWs l) := by
  cases l with
  | nil => intro c hc; simp [collapseWs, collapseAux] at hc
  | cons a t =>
    have ha : isWsChar a = false := h a rfl
    intro c hc
    unfold collapseWs at hc
    rw [collapseAux_cons_nws false a t ha] at hc
    have hac : a = c := by simpa using hc
    subst hac
    exact ha

theorem collapseAux_ne_nil :
    ∀ (t : List Char), t ≠ [] → LastOk t → ∀ (b : Bool), collapseAux b t ≠ [] := by
  intro t
  induction t with
  | nil => intro h; exact absurd rfl h
  | cons a t ih =>
    intro _ hL b
    by_cases ha : isWsChar a = true
    · cases t with
      | nil =>
        have hfa := hL a rfl
        rw [hfa] at ha
        exact absurd ha (by simp)
      | cons a2 t2 =>
        have hL2 : LastOk (a2 :: t2) := by
          intro c hc
          exact hL c (by rw [List.getLast?_cons_cons]; exact hc)
        cases b with
        | true =>
          rw [collapseAux_cons_ws_t a _ ha]
          exact ih (by simp) hL2 true
        | false =>
          rw [collapseAux_cons_ws_f a _ ha]
          simp
    · rw [collapseAux_cons_nws b a t (bool_eq_false ha)]
      simp

theorem LastOk_collapseAux :
    ∀ (t : List Char), LastOk t → ∀ (b : Bool), LastOk (collapseAux b t) := by
  intro t
  induction t with
  | nil => intro _ b c hc; simp [collapseAux] at hc
  | cons a t ih =>
    intro hL b
    by_cases ha : isWsChar a = true
    · cases t with
      | nil =>
        have hfa := hL a rfl
        rw [hfa] at ha
        exact absurd ha (by simp)
      | cons a2 t2 =>
        have hL2 : LastOk (a2 :: t2) := by
          intro c hc
          exact hL c (by rw [List.getLast?_cons_cons]; exact hc)
        cases b with
        | true =>
          rw [collapseAux_cons_ws_t a _ ha]
          exact ih hL2 true
        | false =>
          rw [collapseAux_cons_ws_f a _ ha]
          intro c hc
          have hne : collapseAux true (a2 :: t2) ≠ [] :=
            collapseAux_ne_nil (a2 :: t2) (by simp) hL2 true
          cases hX : collapseAux true (a2 :: t2) with
          | nil => exact absurd hX hne
          | cons x xs =>
            rw [hX, List.getLast?_cons_cons] at hc
            have hIH := ih hL2 true
            rw [hX] at hIH
            exact hIH c hc
    · have ha' : isWsChar a = false := bool_eq_false ha
      rw [collapseAux_cons_nws b a t ha']
      cases t with
      | nil =>
        intro c hc
        rw [collapseAux_nil] at hc
        have hac : a = c := by simpa using hc
        subst hac
        exact ha'
      | cons a2 t2 =>
        have hL2 : LastOk (a2 :: t2) := by
          intro c hc
          exact hL c (by rw [List.getLast?_cons_cons]; exact hc)
        intro c hc
        have hne : collapseAux false (a2 :: t2) ≠ [] :=
          collapseAux_ne_nil (a2 :: t2) (by simp) hL2 false
        cases hX : collapseAux false (a2 :: t2) with
        | nil => exact absurd hX hne
        | cons x xs =>
          rw [hX, List.getLast?_cons_cons] at hc
          have hIH := ih hL2 false
          rw [hX] at hIH
          exact hIH c hc

theorem collapseAux_idem :
    ∀ (l : List Char) (b : Bool), collapseAux b (collapseAux b l) = collapseAux b l := by
  intro l
  induction l with
  | nil => intro b; rfl
  | cons a t ih =>
    intro b
    by_cases ha : isWsChar a = true
    · cases b with
      | true =>
        rw [collapseAux_cons_ws_t a _ ha]
        exact ih true
      | false =>
        rw [collapseAux_cons_ws_f a _ ha,
          collapseAux_cons_ws_f ' ' _ (by decide), ih true]
    · have ha' : isWsChar a = false := bool_eq_false ha
      rw [collapseAux_cons_nws b a t ha',
        collapseAux_cons_nws b a (collapseAux false t) ha', ih false]

theorem mem_collapseAux :
    ∀ (l : List Char) (b : Bool) (c : Char), c ∈ collapseAux b l → c = ' ' ∨ c ∈ l := by
  intro l
  induction l with
  | nil => intro b c hc; simp [collapseAux] at hc
  | cons a t ih =>
    intro b c hc
    by_cases ha : isWsChar a = true
    · cases b with
      | true =>
        rw [collapseAux_cons_ws_t a _ ha] at hc
        rcases ih true c hc with h | h
        · exact Or.inl h
        · exact Or.inr (List.mem_cons_of_mem a h)
      | false =>
        rw [collapseAux_cons_ws_f a _ ha] at hc
        rcases List.mem_cons.mp hc with h | h
        · exact Or.inl h
        · rcases ih true c h with h2 | h2
          · exact Or.inl h2
          · exact Or.inr (List.mem_cons_of_mem a h2)
    · rw [collapseAux_cons_nws b a t (bool_eq_false ha)] at hc
      rcases List.mem_cons.mp hc with h | h
      · exact Or.inr (h ▸ List.mem_cons_self a t)
      · rcases ih false c h with h2 | h2
        · exact Or.inl h2
        · exact Or.inr (List.mem_cons_of_mem a h2)

theorem al_fix (d : Char) :
    aposChar (lowerChar (aposChar (lowerChar d))) = aposChar (lowerChar d) := by
  rw [lowerChar_aposChar]
  exact aposChar_idem _

theorem al_space : aposChar (lowerChar ' ') = ' ' := by decide

theorem canonList_idem (l : List Char) : canonList (canonList l) = canonList l := by
  have hHm : HeadOk (((trimList l).map lowerChar).map aposChar) :=
    HeadOk_map _ isWs_aposChar (HeadOk_map _ isWs_lowerChar (HeadOk_trimList l))
  have hLm : LastOk (((trimList l).map lowerChar).map aposChar) :=
    LastOk_map _ isWs_aposChar (LastOk_map _ isWs_lowerChar (LastOk_trimList l))
  have hHt : HeadOk (canonList l) := HeadOk_collapse hHm
  have hLt : LastOk (canonList l) := LastOk_collapseAux _ hLm false
  have hfix : ∀ c ∈ canonList l, aposChar (lowerChar c) = c := by
    intro c hc
    rcases mem_collapseAux _ false c hc with h | h
    · rw [h]; exact al_space
    · rcases List.mem_map.mp h with ⟨d1, hd1, hd1e⟩
      rcases List.mem_map.mp hd1 with ⟨d, _, hde⟩
      rw [← hd1e, ← hde]
      exact al_fix d
  have e1 : trimList (canonList l) = canonList l := trimList_fix hHt hLt
  have e2 : List.map aposChar (List.map lowerChar (canonList l)) = canonList l := by
    rw [List.map_map]
    have emap : List.map (aposChar ∘ lowerChar) (canonList l) =
        List.map id (canonList l) :=
      List.map_congr_left (fun a ha => hfix a ha)
    rw [emap, List.map_id]
  have e3 : collapseWs (canonList l) = canonList l :=
    collapseAux_idem (((trimList l).map lowerChar).map aposChar) false
  calc canonList (canonList l)
      = collapseWs (((trimList (canonList l)).map lowerChar).map aposChar) := rfl
    _ = collapseWs (((canonList l).map lowerChar).map aposChar) := by rw [e1]
    _ = collapseWs (canonList l) := by rw [e2]
    _ = canonList l := e3

theorem digitChar_toNat : ∀ d, d < 10 → (digitChar d).toNat = 48 + d := by decide

theorem digitChar_ne_us : ∀ d, d < 10 → digitChar d ≠ '_' := by decide

theorem parseNat_decStrAux : ∀ (fuel n : Nat), n < fuel →
    parseNatChars (decStrAux fuel n) = n := by
  intro fuel
  induction fuel with
  | zero => intro n h; omega
  | succ fuel ih =>
    intro n h
    by_cases h10 : n < 10
    · show parseNatChars (decStrAux (fuel + 1) n) = n
      unfold decStrAux
      rw [if_pos h10]
      show 0 * 10 + ((digitChar n).toNat - 48) = n
      rw [digitChar_toNat n h10]
      omega
    · have hdiv : n / 10 < n := Nat.div_lt_self (by omega) (by omega)
      have hrec := ih (n / 10) (by omega)
      show parseNatChars (decStrAux (fuel + 1) n) = n
      unfold decStrAux
      rw [if_neg h10]
      unfold parseNatChars
      rw [List.foldl_append]
      have hmod := digitChar_toNat (n % 10) (Nat.mod_lt n (by omega))
      show (parseNatChars (decStrAux fuel (n / 10))) * 10 + ((digitChar (n % 10)).toNat - 48) = n
      rw [hrec, hmod]
      omega

theorem decChars_inj : ∀ (m n : Nat), decChars m = decChars n → m = n := by
  intro m n h
  have hm := parseNat_decStrAux (m + 1) m (by omega)
  have hn := parseNat_decStrAux (n + 1) n (by omega)
  unfold decChars at h
  rw [h] at hm
  rw [hn] at hm
  exact hm.symm

theorem decStrAux_digits : ∀ (fuel n : Nat) (c : Char),
    c ∈ decStrAux fuel n → ∃ d, d < 10 ∧ c = digitChar d := by
  intro fuel
  induction fuel with
  | zero => intro n c hc; simp [decStrAux] at hc
  | succ fuel ih =>
    intro n c hc
    unfold decStrAux at hc
    by_cases h10 : n < 10
    · rw [if_pos h10] at hc
      have : c = digitChar n := by simpa using hc
      exact ⟨n, h10, this⟩
    · rw [if_neg h10] at hc
      rcases List.mem_append.mp hc with h | h
      · exact ih (n / 10) c h
      · have : c = digitChar (n % 10) := by simpa using h
        exact ⟨n % 10, Nat.mod_lt n (by omega), this⟩

theorem decChars_ne_nil (n : Nat) : decChars n ≠ [] := by
  unfold decChars decStrAux
  by_cases h10 : n < 10
  · rw [if_pos h10]; simp
  · rw [if_neg h10]; simp

theorem append_uu_inj :
    ∀ (u1 u2 s1 s2 : List Char),
      (∀ c ∈ s1, c ≠ '_') → (∀ c ∈ s2, c ≠ '_') → s1 ≠ [] → s2 ≠ [] →
      u1 ++ '_' :: '_' :: s1 = u2 ++ '_' :: '_' :: s2 → u1 = u2 ∧ s1 = s2 := by
  intro u1
  induction u1 with
  | nil =>
    intro u2 s1 s2 h1 h2 hn1 hn2 heq
    cases u2 with
    | nil =>
      refine ⟨rfl, ?_⟩
      simpa using heq
    | cons b u2' =>
      simp only [List.nil_append, List.cons_append] at heq
      injection heq with hb heq2
      cases u2' with
      | nil =>
        simp only [List.nil_append] at heq2
        injection heq2 with _ heq3
        exact absurd rfl (h1 '_' (heq3 ▸ List.mem_cons_self _ _))
      | cons b2 u2'' =>
        simp only [List.cons_append] at heq2
        injection heq2 with _ heq3
        have : ('_' : Char) ∈ s1 := by
          rw [heq3]
          exact List.mem_append.mpr (Or.inr (List.mem_cons_self _ _))
        exact absurd rfl (h1 '_' this)
  | cons a u1' ih =>
    intro u2 s1 s2 h1 h2 hn1 hn2 heq
    cases u2 with
    | nil =>
      simp only [List.cons_append, List.nil_append] at heq
      injection heq with hb heq2
      cases u1' with
      | nil =>
        simp only [List.nil_append] at heq2
        injection heq2 with _ heq3
        exact absurd rfl (h2 '_' (heq3.symm ▸ List.mem_cons_self _ _))
      | cons c2 u1'' =>
        simp only [List.cons_append] at heq2
        injection heq2 with _ heq3
        have : ('_' : Char) ∈ s2 := by
          rw [← heq3]
          exact List.mem_append.mpr (Or.inr (List.mem_cons_self _ _))
        exact absurd rfl (h2 '_' this)
    | cons b u2' =>
      simp only [List.cons_append] at heq
      injection heq with hb heq2
      obtain ⟨he1, he2⟩ := ih u2' s1 s2 h1 h2 hn1 hn2 heq2
      exact ⟨by rw [hb, he1], he2⟩

theorem decChars_no_us (k : Nat) : ∀ c ∈ decChars k, c ≠ '_' := by
  intro c hc
  obtain ⟨d, hd, hcd⟩ := decStrAux_digits _ _ c hc
  rw [hcd]
  exact digitChar_ne_us d hd

theorem mkName_inj {b1 b2 : String} {k1 k2 : Nat}
    (h : mkName b1 k1 = mkName b2 k2) : b1 = b2 ∧ k1 = k2 := by
  have hdata : b1.data ++ '_' :: '_' :: decChars k1
      = b2.data ++ '_' :: '_' :: decChars k2 := congrArg String.data h
  obtain ⟨hu, hs⟩ := append_uu_inj _ _ _ _ (decChars_no_us k1) (decChars_no_us k2)
    (decChars_ne_nil k1) (decChars_ne_nil k2) hdata
  refine ⟨?_, decChars_inj _ _ hs⟩
  cases b1 with
  | mk d1 =>
    cases b2 with
    | mk d2 => exact congrArg String.mk hu

theorem reSubRemove_eq_filter (p : Char → Bool) :
    ∀ l : List Char, reSubRemove p l = l.filter (fun c => !(p c)) := by
  intro l
  induction l with
  | nil => rfl
  | cons c cs ih =>
    unfold reSubRemove
    rw [List.filter_cons]
    by_cases hp : p c = true
    · rw [if_pos hp, hp]
      simp only [Bool.not_true, Bool.false_eq_true, if_false]
      exact ih
    · have hp' := bool_eq_false hp
      rw [if_neg hp, hp']
      simp only [Bool.not_false, if_true]
      rw [ih]

theorem trimList_decomp (l : List Char) :
    ∃ p q, l = p ++ trimList l ++ q ∧ p.all isWsChar = true ∧ q.all isWsChar = true := by
  refine ⟨l.takeWhile isWsChar, ((trimLeft l).reverse.takeWhile isWsChar).reverse, ?_, ?_, ?_⟩
  · have h1 : l = l.takeWhile isWsChar ++ trimLeft l := by
      unfold trimLeft
      rw [List.takeWhile_append_dropWhile]
    have h2 : trimLeft l =
        trimList l ++ ((trimLeft l).reverse.takeWhile isWsChar).reverse := by
      unfold trimList
      have h3 : (trimLeft l).reverse =
          (trimLeft l).reverse.takeWhile isWsChar ++ (trimLeft l).reverse.dropWhile isWsChar := by
        rw [List.takeWhile_append_dropWhile]
      calc trimLeft l = (trimLeft l).reverse.reverse := by rw [List.reverse_reverse]
        _ = ((trimLeft l).reverse.takeWhile isWsChar
              ++ (trimLeft l).reverse.dropWhile isWsChar).reverse := by rw [← h3]
        _ = ((trimLeft l).reverse.dropWhile isWsChar).reverse
              ++ ((trimLeft l).reverse.takeWhile isWsChar).reverse := by
              rw [List.reverse_append]
    calc l = l.takeWhile isWsChar ++ trimLeft l := h1
      _ = l.takeWhile isWsChar
            ++ (trimList l ++ ((trimLeft l).reverse.takeWhile isWsChar).reverse) := by rw [← h2]
      _ = l.takeWhile isWsChar ++ trimList l
            ++ ((trimLeft l).reverse.takeWhile isWsChar).reverse := by
            rw [List.append_assoc]
  · rw [List.all_eq_true]
    intro x hx
    exact List.mem_takeWhile_imp hx
  · rw [List.all_eq_true]
    intro x hx
    rw [List.mem_reverse] at hx
    exact List.mem_takeWhile_imp hx

theorem loadLoop_eq (results : List (Option (List Row))) :
    loadLoop results = results.filterMap id := by
  have key : ∀ (rs : List (Option (List Row))) (acc : List (List Row)),
      rs.foldl (fun dfs r =>
        match r with
        | some df => dfs ++ [df]
        | none => dfs) acc = acc ++ rs.filterMap id := by
    intro rs
    induction rs with
    | nil => intro acc; simp
    | cons r rs ih =>
      intro acc
      cases r with
      | none =>
        rw [List.foldl_cons]
        show rs.foldl _ acc = _
        rw [ih acc]
        simp [List.filterMap_cons]
      | some df =>
        rw [List.foldl_cons]
        show rs.foldl _ (acc ++ [df]) = _
        rw [ih (acc ++ [df])]
        simp [List.filterMap_cons]
  show results.foldl _ [] = _
  rw [key results []]
  simp

theorem guard_filter (c : Prop) [Decidable c] (p : Row → Bool) (l : List Row) :
    (if c then l.filter p else l) = l.filter (fun r => decide (¬ c) || p r) := by
  by_cases hc : c
  · rw [if_pos hc]
    apply List.filter_congr
    intro r _
    simp [hc]
  · rw [if_neg hc]
    have : (fun r => decide (¬ c) || p r) = fun _ => true := by
      funext r
      simp [hc]
    rw [this]
    simp

theorem apply_filters_eq_single (df : List Row) (tech service paymode : String)
    (d1 d2 : PDate) :
    apply_filters df tech service paymode d1 d2 =
      df.filter (fun r =>
        (decide (¬(paymode ≠ "" ∧ paymode ≠ "All")) || decide (r.paymentMode = paymode))
        && ((decide (¬(service ≠ "" ∧ service ≠ "All")) || decide (r.service = service))
        && ((decide (¬(tech ≠ "" ∧ tech ≠ "All")) || decide (r.tech = tech))
        && ((match r.timestamp with
             | some t => decide (d1 ≤ t) && decide (t ≤ d2)
             | none => false)
        && r.timestamp.isSome)))) := by
  unfold apply_filters
  dsimp only
  rw [guard_filter, guard_filter, guard_filter]
  rw [List.filter_filter, List.filter_filter, List.filter_filter, List.filter_filter]
  simp only [Bool.and_assoc]

theorem apply_filters_keepsRow (df : List Row) (tech service paymode : String)
    (d1 d2 : PDate) (ht : tech ≠ "") (hs : service ≠ "") (hp : paymode ≠ "") :
    apply_filters df tech service paymode d1 d2 =
      df.filter (keepsRow tech service paymode d1 d2) := by
  rw [apply_filters_eq_single]
  apply List.filter_congr
  intro r _
  unfold keepsRow
  have et : decide (¬(tech ≠ "" ∧ tech ≠ "All")) = decide (tech = "All") :=
    decide_eq_decide.mpr (by
      constructor
      · intro h
        by_contra hA
        exact h ⟨ht, hA⟩
      · intro hA hand
        exact hand.2 hA)
  have es : decide (¬(service ≠ "" ∧ service ≠ "All")) = decide (service = "All") :=
    decide_eq_decide.mpr (by
      constructor
      · intro h
        by_contra hA
        exact h ⟨hs, hA⟩
      · intro hA hand
        exact hand.2 hA)
  have ep : decide (¬(paymode ≠ "" ∧ paymode ≠ "All")) = decide (paymode = "All") :=
    decide_eq_decide.mpr (by
      constructor
      · intro h
        by_contra hA
        exact h ⟨hp, hA⟩
      · intro hA hand
        exact hand.2 hA)
  rw [et, es, ep]
  cases hts : r.timestamp with
  | none => simp
  | some t => simp [Bool.and_comm, Bool.and_left_comm, Bool.and_assoc]

theorem allInclusive_keeps (ts : List (List Row)) (d1 d2 : PDate)
    (hall : ∀ r ∈ ts.flatten, r.timestamp.isSome = true)
    (hrange : ∀ r ∈ ts.flatten, ∀ t, r.timestamp = some t → d1 ≤ t ∧ t ≤ d2) :
    apply_filters ts.flatten "All" "All" "All" d1 d2 = ts.flatten := by
  rw [apply_filters_eq_single]
  apply List.filter_eq_self.mpr
  intro r hr
  have g : decide (¬(("All" : String) ≠ "" ∧ ("All" : String) ≠ "All")) = true := by decide
  have h1 := hall r hr
  cases hts : r.timestamp with
  | none => rw [hts] at h1; simp at h1
  | some t =>
    have h2 := hrange r hr t hts
    simp [g, hts, decide_eq_true h2.1, decide_eq_true h2.2]

theorem loaded_merge (a b : List (List Row)) (hne : a ≠ [] ∨ b ≠ []) :
    df_all (a.map some ++ Option.none :: b.map some) = some (a.flatten ++ b.flatten) := by
  unfold df_all
  dsimp only
  rw [loadLoop_eq, List.filterMap_append]
  have h1 : (a.map some).filterMap id = a := by
    rw [List.filterMap_map]
    exact List.filterMap_some a
  have h2 : (Option.none :: b.map some).filterMap id = b := by
    rw [List.filterMap_cons]
    show (b.map some).filterMap id = b
    rw [List.filterMap_map]
    exact List.filterMap_some b
  rw [h1, h2]
  have hne2 : (a ++ b).isEmpty = false := by
    rcases hne with h | h
    · cases a with
      | nil => exact absurd rfl h
      | cons x xs => rfl
    · cases a with
      | nil =>
        cases b with
        | nil => exact absurd rfl h
        | cons y ys => rfl
      | cons x xs => rfl
  rw [hne2]
  simp [List.flatten_append]

theorem colNames_transformCol (n : String) (f : Col → Col) (fr : Frame) :
    colNames (transformCol n f fr) = colNames fr := by
  unfold colNames transformCol
  rw [List.map_map]
  apply List.map_congr_left
  intro p _
  by_cases h : p.1 = n
  · simp [h]
  · simp [h]

theorem getCol_transformCol (n : String) (f : Col → Col) (fr : Frame) (m : String) :
    getCol (transformCol n f fr) m =
      if n = m then (getCol fr m).map f else getCol fr m := by
  induction fr with
  | nil =>
    by_cases h : n = m <;> simp [transformCol, getCol, h]
  | cons p fr ih =>
    obtain ⟨pn, pc⟩ := p
    show getCol ((if pn = n then (pn, f pc) else (pn, pc)) :: transformCol n f fr) m = _
    by_cases hm : pn = m
    · subst hm
      by_cases hn : pn = n
      · subst hn
        rw [if_pos rfl]
        unfold getCol
        rw [List.find?_cons_of_pos _ (by simp), List.find?_cons_of_pos _ (by simp)]
        rw [if_pos rfl]
        rfl
      · rw [if_neg hn]
        unfold getCol
        rw [List.find?_cons_of_pos _ (by simp), List.find?_cons_of_pos _ (by simp)]
        rw [if_neg (fun he => hn he.symm)]
    · have hskip : ((if pn = n then (pn, f pc) else (pn, pc)) : String × Col).1 = pn := by
        by_cases hn : pn = n <;> simp [hn]
      unfold getCol
      rw [List.find?_cons_of_neg _ (by simp [hskip, hm]), List.find?_cons_of_neg _ (by simp [hm])]
      exact ih

theorem hasCol_iff (fr : Frame) (n : String) : hasCol fr n = true ↔ n ∈ colNames fr := by
  unfold hasCol colNames
  rw [List.any_eq_true]
  constructor
  · rintro ⟨p, hp, he⟩
    exact List.mem_map.mpr ⟨p, hp, of_decide_eq_true he⟩
  · intro h
    rcases List.mem_map.mp h with ⟨p, hp, he⟩
    exact ⟨p, hp, decide_eq_true he⟩

theorem getCol_mem (fr : Frame) (n : String) (h : n ∈ colNames fr) :
    ∃ c, getCol fr n = some c ∧ (n, c) ∈ fr := by
  induction fr with
  | nil => simp [colNames] at h
  | cons p fr ih =>
    obtain ⟨pn, pc⟩ := p
    by_cases hp : pn = n
    · subst hp
      refine ⟨pc, ?_, List.mem_cons_self _ _⟩
      unfold getCol
      rw [List.find?_cons_of_pos _ (by simp)]
      rfl
    · have hn : n ∈ colNames fr := by
        unfold colNames at h
        rw [List.map_cons] at h
        rcases List.mem_cons.mp h with he | hm
        · exact absurd he.symm hp
        · exact hm
      obtain ⟨c, hc1, hc2⟩ := ih hn
      refine ⟨c, ?_, List.mem_cons_of_mem _ hc2⟩
      unfold getCol
      rw [List.find?_cons_of_neg _ (by simp [hp])]
      exact hc1

theorem colNames_renameFrame (fr : Frame) (stream : String) :
    colNames (renameFrame fr stream) = mappedNames fr stream := by
  unfold renameFrame mappedNames colNames
  rw [List.map_map, List.map_map]
  rfl

theorem colNames_coerceFrame (fr : Frame) :
    colNames (coerceFrame fr) = colNames fr := by
  unfold coerceFrame
  rw [colNames_transformCol, colNames_transformCol, colNames_transformCol,
    colNames_transformCol, colNames_transformCol]

theorem setAssoc_mem {m : List (String × String)} {k v : String} {x : String × String}
    (hx : x ∈ setAssoc m k v) : x = (k, v) ∨ x ∈ m := by
  unfold setAssoc at hx
  by_cases h : m.any (fun p => p.1 = k) = true
  · rw [if_pos h] at hx
    rcases List.mem_map.mp hx with ⟨y, hy, he⟩
    by_cases hyk : y.1 = k
    · rw [if_pos hyk] at he
      exact Or.inl he.symm
    · rw [if_neg hyk] at he
      exact Or.inr (he ▸ hy)
  · rw [if_neg h] at hx
    rcases List.mem_append.mp hx with hm | hm
    · exact Or.inr hm
    · exact Or.inl (by simpa using hm)

theorem buildRenameMap_mem (mapping : List (String × String)) (cols : List String) :
    ∀ x ∈ buildRenameMap mapping cols,
      (∃ kv ∈ mapping, x.2 = kv.2 ∧ canon x.1 = canon kv.1) ∧ x.1 ∈ cols := by
  have key : ∀ (ms acc : List (String × String)),
      (∀ kv ∈ ms, kv ∈ mapping) →
      (∀ x ∈ acc, (∃ kv ∈ mapping, x.2 = kv.2 ∧ canon x.1 = canon kv.1) ∧ x.1 ∈ cols) →
      ∀ x ∈ ms.foldl (fun rm kv =>
          match cols.reverse.find? (fun c => canon c = canon kv.1) with
          | some orig => setAssoc rm orig kv.2
          | none => rm) acc,
        (∃ kv ∈ mapping, x.2 = kv.2 ∧ canon x.1 = canon kv.1) ∧ x.1 ∈ cols := by
    intro ms
    induction ms with
    | nil => intro acc _ hacc x hx; exact hacc x hx
    | cons kv ms ih =>
      intro acc hsub hacc x hx
      rw [List.foldl_cons] at hx
      apply ih _ (fun a ha => hsub a (List.mem_cons_of_mem kv ha)) _ x hx
      intro y hy
      cases hf : cols.reverse.find? (fun c => canon c = canon kv.1) with
      | none =>
        rw [hf] at hy
        exact hacc y hy
      | some orig =>
        rw [hf] at hy
        rcases setAssoc_mem hy with he | hm
        · subst he
          have hps := List.find?_some hf
          have hpm := List.mem_of_find?_eq_some hf
          refine ⟨⟨kv, hsub kv (List.mem_cons_self _ _), rfl, ?_⟩, ?_⟩
          · show canon orig = canon kv.1
            exact of_decide_eq_true hps
          · show orig ∈ cols
            exact List.mem_reverse.mp hpm
        · exact hacc y hm
  intro x hx
  exact key mapping [] (fun kv h => h) (by intro y hy; simp at hy) x hx

theorem renameHeader_cases (rm : List (String × String)) (c : String) :
    renameHeader rm c = c ∨ (c, renameHeader rm c) ∈ rm := by
  unfold renameHeader lookupAssoc
  cases hf : rm.find? (fun p => p.1 = c) with
  | none => exact Or.inl rfl
  | some p =>
    obtain ⟨pn, pv⟩ := p
    have hps := List.find?_some hf
    have hp : pn = c := of_decide_eq_true hps
    subst hp
    exact Or.inr (List.mem_of_find?_eq_some hf)

theorem column_maps_sub (s : String) (kv : String × String)
    (h : kv ∈ COLUMN_MAPS s) : kv ∈ STREAM_MAP := by
  unfold COLUMN_MAPS at h
  by_cases h1 : s = "Recep"
  · rwa [if_pos h1] at h
  · rw [if_neg h1] at h
    by_cases h2 : s = "Tech"
    · rwa [if_pos h2] at h
    · rw [if_neg h2] at h
      by_cases h3 : s = "Wax-Hub"
      · rwa [if_pos h3] at h
      · rw [if_neg h3] at h
        simp at h

theorem canon_price : canon "price" = "price" := by decide

theorem price_alias : ∀ kv ∈ STREAM_MAP, kv.2 = "Price" → kv.1 = "price" := by decide

theorem mapped_no_price (fr : Frame) (stream : String)
    (h1 : ∀ c ∈ colNames fr, canon c ≠ "price")
    (h2 : "Price" ∉ colNames fr) :
    "Price" ∉ mappedNames fr stream := by
  unfold mappedNames
  intro hmem
  rcases List.mem_map.mp hmem with ⟨c, hc, he⟩
  rcases renameHeader_cases (buildRenameMap (COLUMN_MAPS stream) (colNames fr)) c with hid | hin
  · rw [hid] at he
    exact h2 (he ▸ hc)
  · rw [he] at hin
    obtain ⟨⟨kv, hkv, h2e, hcan⟩, _⟩ :=
      buildRenameMap_mem (COLUMN_MAPS stream) (colNames fr) _ hin
    have hkv2 : kv.2 = "Price" := h2e.symm
    have hkv1 : kv.1 = "price" := price_alias kv (column_maps_sub stream kv hkv) hkv2
    apply h1 c hc
    show canon c = "price"
    calc canon c = canon kv.1 := hcan
      _ = canon "price" := by rw [hkv1]
      _ = "price" := canon_price

theorem colNames_standardize (fr : Frame) (stream : String) (rate : ℚ) :
    ∀ n ∈ colNames (standardize fr stream rate),
      n ∈ mappedNames fr stream ∨ n = "Payout" := by
  intro n hn
  unfold standardize at hn
  dsimp only at hn
  by_cases hpay : hasCol (coerceFrame (renameFrame fr stream)) "Payout" = true
  · rw [if_pos hpay] at hn
    rw [colNames_transformCol, colNames_coerceFrame, colNames_renameFrame] at hn
    exact Or.inl hn
  · rw [if_neg hpay] at hn
    cases hg : getCol (coerceFrame (renameFrame fr stream)) "Price" with
    | none =>
      rw [hg] at hn
      rw [colNames_coerceFrame, colNames_renameFrame] at hn
      exact Or.inl hn
    | some pc =>
      rw [hg] at hn
      unfold colNames at hn
      rw [List.map_append] at hn
      rcases List.mem_append.mp hn with h | h
      · rw [show List.map (fun p => p.1) (coerceFrame (renameFrame fr stream))
            = colNames (coerceFrame (renameFrame fr stream)) from rfl,
          colNames_coerceFrame, colNames_renameFrame] at h
        exact Or.inl h
      · have : n = "Payout" := by simpa using h
        exact Or.inr this

theorem no_price_no_col (fr : Frame) (stream : String) (rate : ℚ)
    (h : "Price" ∉ mappedNames fr stream) :
    hasCol (standardize fr stream rate) "Price" = false := by
  cases hc : hasCol (standardize fr stream rate) "Price" with
  | false => rfl
  | true =>
    have hmem := (hasCol_iff _ _).mp hc
    rcases colNames_standardize fr stream rate _ hmem with hIn | hEq
    · exact absurd hIn h
    · exact absurd hEq (by decide)

theorem load_tab_halts (fr : Frame) (stream : String) (rate : ℚ)
    (h : hasCol (standardize fr stream rate) "Price" = false) :
    load_tab fr stream rate = none := by
  unfold load_tab
  dsimp only
  have hm : "Price" ∈ REQUIRED_INTERNAL.filter
      (fun c => !(hasCol (standardize fr stream rate) c)) := by
    apply List.mem_filter.mpr
    refine ⟨by unfold REQUIRED_INTERNAL; simp, ?_⟩
    rw [h]
    rfl
  have hne : (REQUIRED_INTERNAL.filter
      (fun c => !(hasCol (standardize fr stream rate) c))).isEmpty = false := by
    cases hfe : REQUIRED_INTERNAL.filter
        (fun c => !(hasCol (standardize fr stream rate) c)) with
    | nil => rw [hfe] at hm; simp at hm
    | cons x xs => rfl
  rw [hne]
  simp

theorem getCol_coerceFrame_price (fr : Frame) :
    getCol (coerceFrame fr) "Price" = (getCol fr "Price").map toNumCol := by
  unfold coerceFrame
  rw [getCol_transformCol, if_pos rfl]
  rw [getCol_transformCol, if_neg (by decide)]
  rw [getCol_transformCol, if_neg (by decide)]
  rw [getCol_transformCol, if_neg (by decide)]
  rw [getCol_transformCol, if_neg (by decide)]

theorem hasCol_false_iff (fr : Frame) (n : String) :
    hasCol fr n = false ↔ n ∉ colNames fr := by
  constructor
  · intro h hmem
    have hc := (hasCol_iff fr n).mpr hmem
    rw [h] at hc
    exact absurd hc (by simp)
  · intro h
    cases hc : hasCol fr n with
    | false => rfl
    | true => exact absurd ((hasCol_iff fr n).mp hc) h

theorem find?_none_of_hasCol_false {fr : Frame} {n : String} (h : hasCol fr n = false) :
    fr.find? (fun p => p.1 = n) = none := by
  rw [List.find?_eq_none]
  intro x hx hpx
  have hc : hasCol fr n = true := by
    unfold hasCol
    rw [List.any_eq_true]
    exact ⟨x, hx, hpx⟩
  rw [h] at hc
  exact absurd hc (by simp)

theorem payout_derived (fr : Frame) (stream : String) (rate : ℚ)
    (hraw : fr.all (fun p => isRawCol p.2) = true)
    (hP : "Price" ∈ mappedNames fr stream)
    (hNo : "Payout" ∉ mappedNames fr stream) :
    ∃ cells : List (Option ℚ),
      getCol (standardize fr stream rate) "Price" = some (Col.num cells) ∧
      getCol (standardize fr stream rate) "Payout" =
        some (Col.num (cells.map (Option.map (fun q => q * rate)))) := by
  have hP1 : "Price" ∈ colNames (renameFrame fr stream) := by
    rw [colNames_renameFrame]
    exact hP
  obtain ⟨c0, hg0, hmem0⟩ := getCol_mem _ _ hP1
  have hc0 : ∃ cs, c0 = Col.str cs := by
    unfold renameFrame at hmem0
    rcases List.mem_map.mp hmem0 with ⟨p, hp, he⟩
    have hr := (List.all_eq_true.mp hraw) p hp
    have hsnd : p.2 = c0 := congrArg Prod.snd he
    cases hcol : p.2 with
    | str cs => exact ⟨cs, by rw [← hsnd, hcol]⟩
    | date d => rw [hcol] at hr; simp [isRawCol] at hr
    | num d => rw [hcol] at hr; simp [isRawCol] at hr
  obtain ⟨cs, hcs⟩ := hc0
  have hg6 : getCol (coerceFrame (renameFrame fr stream)) "Price"
      = some (Col.num (cs.map coerceCurrency)) := by
    rw [getCol_coerceFrame_price, hg0, hcs]
    rfl
  have hno6 : hasCol (coerceFrame (renameFrame fr stream)) "Payout" = false := by
    rw [hasCol_false_iff, colNames_coerceFrame, colNames_renameFrame]
    exact hNo
  have hstd : standardize fr stream rate
      = coerceFrame (renameFrame fr stream)
        ++ [("Payout", priceTimes rate (Col.num (cs.map coerceCurrency)))] := by
    unfold standardize
    dsimp only
    rw [hno6]
    simp only [Bool.false_eq_true, if_false]
    rw [hg6]
  refine ⟨cs.map coerceCurrency, ?_, ?_⟩
  · rw [hstd]
    cases hf : (coerceFrame (renameFrame fr stream)).find? (fun p => p.1 = "Price") with
    | none =>
      unfold getCol at hg6
      rw [hf] at hg6
      simp at hg6
    | some q =>
      unfold getCol at hg6
      rw [hf] at hg6
      have hq2 : q.2 = Col.num (cs.map coerceCurrency) := by simpa using hg6
      unfold getCol
      rw [List.find?_append, hf]
      show ((some q).or _).map (fun p => p.2) = _
      rw [Option.or_some]
      simp [hq2]
  · rw [hstd]
    unfold getCol
    rw [List.find?_append, find?_none_of_hasCol_false hno6, Option.none_or]
    rw [List.find?_cons_of_pos _ (by simp)]
    rfl

theorem pickAux_zero (seen : List String) (base : String) (k : Nat) :
    pickAux seen base k 0 = mkName base k := rfl

theorem pickAux_succ (seen : List String) (base : String) (k fuel : Nat) :
    pickAux seen base k (fuel + 1) =
      if mkName base k ∈ seen then pickAux seen base (k + 1) fuel
      else mkName base k := rfl

theorem pickAux_fresh (seen : List String) (base : String) :
    ∀ (fuel k : Nat), (∃ j, j ≤ fuel ∧ mkName base (k + j) ∉ seen) →
      pickAux seen base k fuel ∉ seen := by
  intro fuel
  induction fuel with
  | zero =>
    intro k hex
    obtain ⟨j, hj, hfree⟩ := hex
    have hj0 : j = 0 := by omega
    rw [pickAux_zero]
    rw [hj0] at hfree
    simpa using hfree
  | succ fuel ih =>
    intro k hex
    obtain ⟨j, hj, hfree⟩ := hex
    rw [pickAux_succ]
    by_cases hmem : mkName base k ∈ seen
    · rw [if_pos hmem]
      apply ih (k + 1)
      cases j with
      | zero => simp at hfree; exact absurd hmem hfree
      | succ j' =>
        refine ⟨j', by omega, ?_⟩
        have harith : k + 1 + j' = k + (j' + 1) := by omega
        rw [harith]
        exact hfree
    · rw [if_neg hmem]
      exact hmem

theorem exists_fresh (seen : List String) (base : String) (k : Nat) :
    ∃ j, j ≤ seen.length ∧ mkName base (k + j) ∉ seen := by
  by_contra hall
  push_neg at hall
  have hinj : Function.Injective (fun j => mkName base (k + j)) := by
    intro j1 j2 he
    have := (mkName_inj he).2
    omega
  have hnd : ((List.range (seen.length + 1)).map (fun j => mkName base (k + j))).Nodup :=
    (List.nodup_range _).map hinj
  have hsub : ((List.range (seen.length + 1)).map (fun j => mkName base (k + j))) ⊆ seen := by
    intro x hx
    rcases List.mem_map.mp hx with ⟨j, hj, he⟩
    rw [← he]
    exact hall j (by have := List.mem_range.mp hj; omega)
  have hlen := List.Subperm.length_le (List.subperm_of_subset hnd hsub)
  rw [List.length_map, List.length_range] at hlen
  omega

theorem stepName_fresh (prev seen : List String) (h : String) :
    stepName prev seen h ∉ seen := by
  unfold stepName
  dsimp only
  by_cases hn : prev.count (substBlank h) = 0
  · rw [if_pos hn]
    by_cases hmem : substBlank h ∈ seen
    · rw [if_pos hmem]
      apply pickAux_fresh
      obtain ⟨j, hj, hfree⟩ := exists_fresh seen (substBlank h) 2
      exact ⟨j, by omega, hfree⟩
    · rw [if_neg hmem]
      exact hmem
  · rw [if_neg hn]
    apply pickAux_fresh
    obtain ⟨j, hj, hfree⟩ := exists_fresh seen (substBlank h) (prev.count (substBlank h) + 1)
    exact ⟨j, by omega, hfree⟩

theorem dedupGo_spec : ∀ (t prev seen : List String),
    (dedupGo prev seen t).length = t.length ∧
    (dedupGo prev seen t).Nodup ∧
    ∀ x ∈ dedupGo prev seen t, x ∉ seen := by
  intro t
  induction t with
  | nil =>
    intro prev seen
    exact ⟨rfl, List.nodup_nil, by intro x hx; simp [dedupGo] at hx⟩
  | cons h t ih =>
    intro prev seen
    obtain ⟨ihlen, ihnd, ihns⟩ := ih (prev ++ [substBlank h]) (stepName prev seen h :: seen)
    refine ⟨?_, ?_, ?_⟩
    · show (stepName prev seen h :: _).length = t.length + 1
      rw [List.length_cons, ihlen]
    · apply List.nodup_cons.mpr
      refine ⟨?_, ihnd⟩
      intro hmem
      exact ihns _ hmem (List.mem_cons_self _ _)
    · intro x hx
      rcases List.mem_cons.mp hx with he | hm
      · rw [he]
        exact stepName_fresh prev seen h
      · intro hxs
        exact ihns x hm (List.mem_cons_of_mem _ hxs)

theorem count_mono_append (b : String) (prev add : List String) :
    prev.count b ≤ (prev ++ add).count b := by
  rw [List.count_append]
  omega

theorem stepName_eq_naive (B prev seen : List String) (h : String)
    (hNC : NoCollide B)
    (hprevB : ∀ b ∈ prev, b ∈ B)
    (hhB : substBlank h ∈ B)
    (hgs : GoodSeen prev seen) :
    stepName prev seen h =
      (if prev.count (substBlank h) = 0 then substBlank h
       else mkName (substBlank h) (prev.count (substBlank h) + 1)) ∧
    GoodSeen (prev ++ [substBlank h]) (stepName prev seen h :: seen) := by
  have hmain : stepName prev seen h =
      (if prev.count (substBlank h) = 0 then substBlank h
       else mkName (substBlank h) (prev.count (substBlank h) + 1)) := by
    unfold stepName
    dsimp only
    by_cases hn : prev.count (substBlank h) = 0
    · rw [if_pos hn, if_pos hn]
      have hmem : substBlank h ∉ seen := by
        intro hmem
        rcases hgs _ hmem with hin | ⟨b, k, hb, hk2, hkc, he⟩
        · have := List.count_pos_iff.mpr hin
          omega
        · exact hNC _ hhB b (hprevB b hb) k hk2 he
      rw [if_neg hmem]
    · rw [if_neg hn, if_neg hn]
      have hcand : mkName (substBlank h) (prev.count (substBlank h) + 1) ∉ seen := by
        intro hmem
        rcases hgs _ hmem with hin | ⟨b, k, hb, hk2, hkc, he⟩
        · exact hNC _ (hprevB _ hin) (substBlank h) hhB
            (prev.count (substBlank h) + 1) (by omega) rfl
        · obtain ⟨hbe, hke⟩ := mkName_inj he
          rw [← hbe] at hkc
          omega
      have hfuel : seen.length + 1 = seen.length + 1 := rfl
      rw [pickAux_succ, if_neg hcand]
  refine ⟨hmain, ?_⟩
  intro x hx
  rcases List.mem_cons.mp hx with he | hm
  · rw [he, hmain]
    by_cases hn : prev.count (substBlank h) = 0
    · rw [if_pos hn]
      left
      exact List.mem_append.mpr (Or.inr (List.mem_cons_self _ _))
    · rw [if_neg hn]
      right
      refine ⟨substBlank h, prev.count (substBlank h) + 1, ?_, by omega, ?_, rfl⟩
      · exact List.mem_append.mpr (Or.inr (List.mem_cons_self _ _))
      · rw [List.count_append]
        have : List.count (substBlank h) [substBlank h] = 1 := by simp
        omega
  · rcases hgs x hm with hin | ⟨b, k, hb, hk2, hkc, he⟩
    · left
      exact List.mem_append.mpr (Or.inl hin)
    · right
      exact ⟨b, k, List.mem_append.mpr (Or.inl hb), hk2,
        le_trans hkc (count_mono_append b prev _), he⟩

theorem dedupGo_eq_naive (B : List String) (hNC : NoCollide B) :
    ∀ (t prev seen : List String),
      (∀ b ∈ prev, b ∈ B) → (∀ b ∈ t.map substBlank, b ∈ B) → GoodSeen prev seen →
      dedupGo prev seen t = naiveRun prev t := by
  intro t
  induction t with
  | nil => intro prev seen _ _ _; rfl
  | cons h t ih =>
    intro prev seen hprev ht hgs
    have hhB : substBlank h ∈ B := ht _ (by rw [List.map_cons]; exact List.mem_cons_self _ _)
    obtain ⟨he, hgs2⟩ := stepName_eq_naive B prev seen h hNC hprev hhB hgs
    have htail : dedupGo (prev ++ [substBlank h]) (stepName prev seen h :: seen) t
        = naiveRun (prev ++ [substBlank h]) t := by
      apply ih (prev ++ [substBlank h]) (stepName prev seen h :: seen) ?_ ?_ hgs2
      · intro b hb
        rcases List.mem_append.mp hb with h1 | h1
        · exact hprev b h1
        · have hbe : b = substBlank h := by simpa using h1
          rw [hbe]
          exact hhB
      · intro b hb
        apply ht
        rw [List.map_cons]
        exact List.mem_cons_of_mem _ hb
    show stepName prev seen h :: dedupGo (prev ++ [substBlank h]) (stepName prev seen h :: seen) t
        = _ :: naiveRun (prev ++ [substBlank h]) t
    rw [htail, he]

theorem naiveRun_get : ∀ (t prev : List String) (i : Nat), i < t.length →
    (naiveRun prev t)[i]? =
      some (if (prev ++ (t.take i).map substBlank).count (substBlank (t.getD i "")) = 0
            then substBlank (t.getD i "")
            else mkName (substBlank (t.getD i ""))
              ((prev ++ (t.take i).map substBlank).count (substBlank (t.getD i "")) + 1)) := by
  intro t
  induction t with
  | nil => intro prev i hi; simp at hi
  | cons h t ih =>
    intro prev i hi
    cases i with
    | zero =>
      show (naiveRun prev (h :: t))[0]? = _
      unfold naiveRun
      rw [List.getElem?_cons_zero]
      simp
    | succ i' =>
      show (naiveRun prev (h :: t))[i' + 1]? = _
      unfold naiveRun
      rw [List.getElem?_cons_succ]
      rw [ih (prev ++ [substBlank h]) i' (by simpa using Nat.lt_of_succ_lt_succ hi)]
      have e1 : ((h :: t).take (i' + 1)).map substBlank
          = substBlank h :: (t.take i').map substBlank := by
        rw [List.take_succ_cons, List.map_cons]
      have e2 : (h :: t).getD (i' + 1) "" = t.getD i' "" := rfl
      rw [e1, e2]
      have e3 : prev ++ substBlank h :: (t.take i').map substBlank
          = (prev ++ [substBlank h]) ++ (t.take i').map substBlank := by
        rw [List.append_assoc]
        rfl
      rw [e3]

theorem no_us_no_collide (B : List String)
    (h : ∀ b ∈ B, ('_' : Char) ∉ b.data) : NoCollide B := by
  intro b1 hb1 b2 hb2 k hk he
  apply h b1 hb1
  rw [he]
  show ('_' : Char) ∈ b2.data ++ '_' :: '_' :: decChars k
  exact List.mem_append.mpr (Or.inr (List.mem_cons_self _ _))

/-! ## Claim theorems -/

/-- C9: the header normalizer canon is idempotent — canonicalizing an
already canonical header changes nothing. -/
theorem C9_canon_idempotent (h : String) : canon (canon h) = canon h := by
  show String.mk (canonList (canonList h.data)) = String.mk (canonList h.data)
  rw [canonList_idem]

/-- C7 counterexample: the code keeps a minus sign at any position, so the
cell 1-2 cleans to itself and fails numeric conversion, yielding null,
while the claimed rule — keep only a leading minus — would clean it to 12
and yield 12.  The two coercions disagree at this input. -/
theorem C7_counterexample :
    coerceCurrency "1-2" = none ∧ specCoerceLeadingMinus "1-2" = some 12 ∧
    coerceCurrency "1-2" ≠ specCoerceLeadingMinus "1-2" :=
  ⟨by decide, by decide, by decide⟩

/-- C7 as amended: currency coercion strips every character that is not a
digit, a decimal point, or a minus sign — the minus is retained wherever it
occurs — then parses the remainder as a decimal number with null on an
empty or non-numeric result; the scenario cells behave as specified and an
interior minus makes the cell null. -/
theorem C7_currency_coercion (s : String) :
    coerceCurrency s = parseDecimal (String.mk (s.data.filter keepCurrencyChar)) ∧
    coerceCurrency "KSh 1,500.00" = some 1500 ∧
    coerceCurrency emDash = none ∧
    coerceCurrency "1-2" = none := by
  refine ⟨?_, ?_, by decide, by decide⟩
  · unfold coerceCurrency cleanCurrency
    rw [reSubRemove_eq_filter]
    have hfun : (fun c => !(!(keepCurrencyChar c))) = keepCurrencyChar := by
      funext c
      cases keepCurrencyChar c <;> rfl
    rw [hfun]
  · have hstep : coerceCurrency "KSh 1,500.00"
        = some ((parseNatChars ['1', '5', '0', '0'] : ℚ)
          + (parseNatChars ['0', '0'] : ℚ) / (10 : ℚ) ^ (2 : Nat)) := rfl
    have e1 : parseNatChars ['1', '5', '0', '0'] = 1500 := by decide
    have e2 : parseNatChars ['0', '0'] = 0 := by decide
    rw [hstep, e1, e2]
    norm_num

/-- C8 counterexample: PaymentMode coercion deletes dots, so the cell
Mpesa followed by a dot loses its dot, while trim-only coercion keeps it —
internal content is not preserved for PaymentMode. -/
theorem C8_counterexample :
    coercePaymentMode "Mpesa." = "Mpesa" ∧ coerceText "Mpesa." = "Mpesa." ∧
    coercePaymentMode "Mpesa." ≠ coerceText "Mpesa." :=
  ⟨by decide, by decide, by decide⟩

/-- C8 as amended: Tech and Service cells are trimmed of surrounding
whitespace only — the cell decomposes into whitespace, the coerced text,
and whitespace, so internal content and case are preserved — while a
PaymentMode cell is additionally stripped of every dot after the trim. -/
theorem C8_text_coercion (s : String) :
    (∃ p q, s.data = p ++ (coerceText s).data ++ q ∧
      p.all isWsChar = true ∧ q.all isWsChar = true) ∧
    (coercePaymentMode s).data = (coerceText s).data.filter (fun c => c != '.') := by
  constructor
  · exact trimList_decomp s.data
  · rfl

/-- C6: the filter keeps exactly the rows whose timestamp is non-null and
lies inside the inclusive date bounds and whose categorical fields each
equal the selection unless the selection is All, for any non-empty
selections as the sidebar supplies.  The date filter of apply_filters is
always active on canonical tables, which always carry the Timestamp
column. -/
theorem C6_filter_semantics (df : List Row) (tech service paymode : String)
    (d1 d2 : PDate) (ht : tech ≠ "") (hs : service ≠ "") (hp : paymode ≠ "") :
    apply_filters df tech service paymode d1 d2 =
      df.filter (keepsRow tech service paymode d1 d2) :=
  apply_filters_keepsRow df tech service paymode d1 d2 ht hs hp

/-- C6 witness: on the five-row scenario table with range January 2024 the
filter equals the claimed predicate filter and keeps exactly two rows. -/
theorem C6_witness :
    apply_filters exRows6 "All" "All" "All" 20240101 20240131 =
      exRows6.filter (keepsRow "All" "All" "All" 20240101 20240131) ∧
    (apply_filters exRows6 "All" "All" "All" 20240101 20240131).length = 2 :=
  ⟨C6_filter_semantics exRows6 "All" "All" "All" 20240101 20240131
    (by decide) (by decide) (by decide), by decide⟩

/-- C4 counterexample: with a null-timestamp row in one of the merged
tables, the all-inclusive filter — every categorical All and the widest
date range — returns fewer rows than the sum of the input row counts,
because the always-active date filter drops null timestamps. -/
theorem C4_counterexample :
    (apply_filters ([[exRowNull], [exRow1]] : List (List Row)).flatten "All" "All" "All"
        20240105 20240105).length ≠
      (([[exRowNull], [exRow1]] : List (List Row)).map List.length).sum := by
  decide

/-- C4 as amended: merging per-stream canonical tables and filtering with
every categorical set to All and date bounds covering every timestamp
returns exactly the concatenated rows in stream-major order — hence a row
count equal to the sum of the inputs — provided every merged row carries a
non-null timestamp; rows with null timestamps are dropped even by the
all-inclusive filter. -/
theorem C4_merge_filter_roundtrip (ts : List (List Row)) (d1 d2 : PDate)
    (hall : ∀ r ∈ ts.flatten, r.timestamp.isSome = true)
    (hrange : ∀ r ∈ ts.flatten, ∀ t, r.timestamp = some t → d1 ≤ t ∧ t ≤ d2) :
    apply_filters ts.flatten "All" "All" "All" d1 d2 = ts.flatten ∧
    (apply_filters ts.flatten "All" "All" "All" d1 d2).length = (ts.map List.length).sum := by
  have he := allInclusive_keeps ts d1 d2 hall hrange
  exact ⟨he, by rw [he, List.length_flatten]⟩

/-- C4 witness: the round trip applied to one single-row table. -/
theorem C4_witness :
    apply_filters ([[exRow1]] : List (List Row)).flatten "All" "All" "All" 20240105 20240105
      = ([[exRow1]] : List (List Row)).flatten ∧
    (apply_filters ([[exRow1]] : List (List Row)).flatten "All" "All" "All"
        20240105 20240105).length
      = (([[exRow1]] : List (List Row)).map List.length).sum := by
  apply C4_merge_filter_roundtrip
  · intro r hr
    have hre : r = exRow1 := by simpa using hr
    rw [hre]
    rfl
  · intro r hr t ht
    have hre : r = exRow1 := by simpa using hr
    rw [hre] at ht
    have h2 : (some (20240105 : Int)) = some t := ht
    have htv : (20240105 : Int) = t := Option.some.inj h2
    exact ⟨le_of_eq htv, le_of_eq htv.symm⟩

/-- C5: a load cycle in which one stream fails while the others succeed
merges exactly the successful streams — the failed stream contributes zero
rows, every row of the sibling streams is present and unchanged in order,
and the merge is not aborted. -/
theorem C5_stream_failure_isolated (a b : List (List Row)) (hne : a ≠ [] ∨ b ≠ []) :
    df_all (a.map some ++ Option.none :: b.map some) = some (a.flatten ++ b.flatten) ∧
    (a.flatten ++ b.flatten).length = (a.map List.length).sum + (b.map List.length).sum := by
  refine ⟨loaded_merge a b hne, ?_⟩
  rw [List.length_append, List.length_flatten, List.length_flatten]

/-- C5 witness: one failing stream between two loaded single-row streams. -/
theorem C5_witness :
    df_all (([[exRow1]] : List (List Row)).map some
        ++ Option.none :: ([[exRowNull]] : List (List Row)).map some)
      = some (([[exRow1]] : List (List Row)).flatten
        ++ ([[exRowNull]] : List (List Row)).flatten) ∧
    (([[exRow1]] : List (List Row)).flatten
        ++ ([[exRowNull]] : List (List Row)).flatten).length
      = (([[exRow1]] : List (List Row)).map List.length).sum
        + (([[exRowNull]] : List (List Row)).map List.length).sum :=
  C5_stream_failure_isolated [[exRow1]] [[exRowNull]] (Or.inl (by decide))

/-- C1 counterexample: a Recep frame whose headers match aliases for
Timestamp, Tech, Service and PaymentMode but carry no alias match and no
fallback for Price makes load_tab halt — st.stop modelled as none — instead
of completing with a null-populated Price field. -/
theorem C1_counterexample :
    load_tab exFrameNoPrice "Recep" (7 / 20 : ℚ) = none := by
  decide

/-- C1 as amended: when the required target field Price has no alias match
among the canonicalized headers and no column is literally named Price —
the code declares no fallback positions — loading of that stream is halted
by validate_required rather than completing with the field null-populated;
only non-required fields are tolerated missing. -/
theorem C1_required_gap_halts (fr : Frame) (stream : String) (rate : ℚ)
    (h1 : ∀ c ∈ colNames fr, canon c ≠ "price") (h2 : "Price" ∉ colNames fr) :
    load_tab fr stream rate = none :=
  load_tab_halts fr stream rate (no_price_no_col fr stream rate (mapped_no_price fr stream h1 h2))

/-- C1 witness: the halting theorem applied to the alias-free frame. -/
theorem C1_witness : load_tab exFrameNoPrice "Tech" (7 / 20 : ℚ) = none :=
  C1_required_gap_halts exFrameNoPrice "Tech" (7 / 20 : ℚ) (by decide) (by decide)

/-- C2 counterexample: with the scenario frame whose column at zero-based
index 11 is labelled Random Notes and holds numeric text, standardize
produces no Price column at all — the mapper never pulls a field by
position, contrary to the claimed fallback behavior. -/
theorem C2_counterexample :
    hasCol (standardize exFrameRandomNotes "Recep" (7 / 20 : ℚ)) "Price" = false := by
  decide

/-- C2 as amended: the stream schemas declare no fixed-position fallback —
COLUMN_MAPS is header-text-only — so mapping is purely by canonicalized
header text: whenever no header canon-matches the price alias and no column
is literally named Price, the standardized frame has no Price column,
regardless of what any column position holds. -/
theorem C2_no_positional_fallback (fr : Frame) (stream : String) (rate : ℚ)
    (h1 : ∀ c ∈ colNames fr, canon c ≠ "price") (h2 : "Price" ∉ colNames fr) :
    hasCol (standardize fr stream rate) "Price" = false :=
  no_price_no_col fr stream rate (mapped_no_price fr stream h1 h2)

/-- C2 witness: the alias-only mapping theorem applied to the Random Notes
frame of scenario five. -/
theorem C2_witness :
    hasCol (standardize exFrameRandomNotes "Recep" (1 / 4 : ℚ)) "Price" = false :=
  C2_no_positional_fallback exFrameRandomNotes "Recep" (1 / 4 : ℚ) (by decide) (by decide)

/-- C10: when after mapping a stream frame has a Price column and no Payout
column, standardize appends a Payout column whose every cell is the Price
cell multiplied by the commission rate, null exactly where Price is null. -/
theorem C10_payout_computed (fr : Frame) (stream : String) (rate : ℚ)
    (hraw : fr.all (fun p => isRawCol p.2) = true)
    (hP : "Price" ∈ mappedNames fr stream)
    (hNo : "Payout" ∉ mappedNames fr stream) :
    ∃ cells, getCol (standardize fr stream rate) "Price" = some (Col.num cells) ∧
      getCol (standardize fr stream rate) "Payout" =
        some (Col.num (cells.map (Option.map (fun q => q * rate)))) :=
  payout_derived fr stream rate hraw hP hNo

/-- C10 witness: the derivation applied to a frame with a Price column and
the default commission rate. -/
theorem C10_witness :
    ∃ cells, getCol (standardize exFramePrice "Recep" (7 / 20 : ℚ)) "Price"
        = some (Col.num cells) ∧
      getCol (standardize exFramePrice "Recep" (7 / 20 : ℚ)) "Payout" =
        some (Col.num (cells.map (Option.map (fun q => q * (7 / 20 : ℚ))))) :=
  C10_payout_computed exFramePrice "Recep" (7 / 20 : ℚ) (by decide) (by decide) (by decide)

/-- C3 counterexample: on the headers a, a, a__2 no output can satisfy the
claim as stated — uniqueness forces the second a to become a__2, which then
collides with the first occurrence of the label a__2, so that label cannot
be used as-is; the modelled deduplicate bumps it to a__2__2. -/
theorem C3_counterexample :
    deduplicate ["a", "a", "a__2"] = ["a", "a__2", "a__2__2"] ∧
    (deduplicate ["a", "a", "a__2"])[2]? ≠ some "a__2" :=
  ⟨by decide, by decide⟩

/-- C3 as amended: deduplicate always preserves length and produces no
duplicate entries; and when no substituted label collides with a suffixed
form of another label, position i holds the substituted label itself on its
first occurrence and the label suffixed with its occurrence count
otherwise; the scenario headers map as specified, with Unnamed substituted
for the blank header. -/
theorem C3_deduplicate_spec :
    (∀ hs : List String, (deduplicate hs).length = hs.length) ∧
    (∀ hs : List String, (deduplicate hs).Nodup) ∧
    (∀ hs : List String, NoCollide (hs.map substBlank) →
      ∀ i, i < hs.length → (deduplicate hs)[i]? = some (specName hs i)) ∧
    deduplicate ["Timestamp", "Timestamp", ""] = ["Timestamp", "Timestamp__2", "Unnamed"] := by
  refine ⟨?_, ?_, ?_, by decide⟩
  · intro hs
    exact (dedupGo_spec hs [] []).1
  · intro hs
    exact (dedupGo_spec hs [] []).2.1
  · intro hs hNC i hi
    have heq : deduplicate hs = naiveRun [] hs := by
      apply dedupGo_eq_naive (hs.map substBlank) hNC hs [] []
      · intro b hb
        simp at hb
      · intro b hb
        exact hb
      · intro x hx
        simp at hx
    rw [heq, naiveRun_get hs [] i hi]
    unfold specName
    simp

/-- C3 witness: the second occurrence of Timestamp in the scenario headers
receives the suffix prescribed by the specification wording. -/
theorem C3_witness :
    (deduplicate ["Timestamp", "Timestamp", ""])[1]? =
      some (specName ["Timestamp", "Timestamp", ""] 1) :=
  C3_deduplicate_spec.2.2.1 ["Timestamp", "Timestamp", ""]
    (no_us_no_collide _ (by decide)) 1 (by decide)

end BusinessOps

